import Mathlib

/-!
Verification of the node-redis client library specification.

This file gives a shallow embedding of the parts of the library the frozen
claims are about: the RESP3 wire codec (encoder and resumable decoder), the
per-connection command pipeline (FIFO reply matching), cluster hash-slot
routing, the unstable-RESP3-command gate, type-mapping client views, typed
transactions, and several per-command argument builders, together with the
default credentials retry policy.

Most of the core (decoder, pipeline, routing, client views) is not present
in the repository snapshot under verification (only its tests, documentation
and command declarations are), so those parts are modelled from the
specification; definitions taken from actual source files say so in their
doc comments.
-/

namespace NodeRedis

/-! ## Decimal byte-string encoding of naturals and integers

RESP length headers and integer replies are decimal ASCII, CRLF-terminated.
Bytes are modelled as natural numbers (ASCII codes).
-/

/-- Fuel-bounded digit extraction, least-significant first, as ASCII bytes;
fuel at least the number itself always suffices. -/
def digsRevF : Nat → Nat → List Nat
  | 0, _ => []
  | fuel + 1, n => if n = 0 then [] else (48 + n % 10) :: digsRevF fuel (n / 10)

/-- Decimal digits of a natural number, least-significant first, as ASCII
bytes; empty for 0. -/
def digsRev (n : Nat) : List Nat := digsRevF n n

theorem digsRevF_stable : ∀ n fuel, n ≤ fuel → digsRevF fuel n = digsRevF n n := by
  intro n
  induction n using Nat.strong_induction_on with
  | _ n ih =>
    intro fuel hf
    match n, fuel with
    | 0, 0 => rfl
    | 0, fu + 1 => simp [digsRevF]
    | m + 1, 0 => omega
    | m + 1, fu + 1 =>
      simp only [digsRevF]
      rw [if_neg (by omega : ¬ (m + 1 = 0))]
      have hlt : (m + 1) / 10 < m + 1 := by omega
      have h1 := ih _ hlt fu (by omega)
      have h2 := ih _ hlt m (by omega)
      rw [h1, h2, if_neg (by omega : ¬ (m + 1 = 0))]

/-- Decimal ASCII encoding of a natural number, most-significant first. -/
def encNat (n : Nat) : List Nat :=
  if n = 0 then [48] else (digsRev n).reverse

/-- Decimal ASCII encoding of an integer: optional leading minus sign. -/
def encInt (i : Int) : List Nat :=
  if i < 0 then 45 :: encNat i.natAbs else encNat i.toNat

/-- Is a byte an ASCII decimal digit. -/
def isDigit (b : Nat) : Bool := 48 ≤ b && b ≤ 57

/-- Fold ASCII digits most-significant first onto an accumulator; fails on
any non-digit byte. -/
def parseDigsAux (acc : Nat) : List Nat → Option Nat
  | [] => some acc
  | b :: rest => if isDigit b then parseDigsAux (acc * 10 + (b - 48)) rest else none

/-- Parse a nonempty all-digit byte string as a natural number. -/
def parseDecimal (l : List Nat) : Option Nat :=
  match l with
  | [] => none
  | _ => parseDigsAux 0 l

/-- Parse a decimal integer token: optional leading minus sign. -/
def parseIntTok : List Nat → Option Int
  | [] => none
  | b :: rest =>
    if b = 45 then (parseDecimal rest).map (fun n => -(n : Int))
    else (parseDecimal (b :: rest)).map (fun n => (n : Int))

theorem digsRev_zero : digsRev 0 = [] := rfl

theorem digsRev_pos {n : Nat} (h : n ≠ 0) :
    digsRev n = (48 + n % 10) :: digsRev (n / 10) := by
  obtain ⟨m, rfl⟩ : ∃ m, n = m + 1 := ⟨n - 1, by omega⟩
  show digsRevF (m + 1) (m + 1) = (48 + (m + 1) % 10) :: digsRev ((m + 1) / 10)
  simp only [digsRevF]
  rw [if_neg (by omega : ¬ (m + 1 = 0))]
  congr 1
  rw [digsRevF_stable ((m + 1) / 10) m (by omega)]
  rfl

theorem digsRev_digits : ∀ n, ∀ b ∈ digsRev n, 48 ≤ b ∧ b ≤ 57 := by
  intro n
  induction n using Nat.strong_induction_on with
  | _ n ih =>
    intro b hb
    by_cases h : n = 0
    · subst h; rw [digsRev_zero] at hb; simp at hb
    · rw [digsRev_pos h] at hb
      rcases List.mem_cons.mp hb with h1 | h1
      · subst h1; constructor
        · omega
        · have : n % 10 < 10 := Nat.mod_lt _ (by omega)
          omega
      · exact ih (n / 10) (Nat.div_lt_self (Nat.pos_of_ne_zero h) (by omega)) b h1

theorem parseDigsAux_append (acc : Nat) (xs ys : List Nat) :
    parseDigsAux acc (xs ++ ys) =
      match parseDigsAux acc xs with
      | some a => parseDigsAux a ys
      | none => none := by
  induction xs generalizing acc with
  | nil => simp [parseDigsAux]
  | cons b tl ih =>
    simp only [List.cons_append, parseDigsAux]
    by_cases hb : isDigit b
    · simp [hb, ih]
    · simp [hb]

theorem parseDigsAux_digsRev (n : Nat) : ∀ acc,
    parseDigsAux acc (digsRev n).reverse = some (acc * 10 ^ (digsRev n).length + n) := by
  induction n using Nat.strong_induction_on with
  | _ n ih =>
    intro acc
    by_cases h : n = 0
    · subst h; rw [digsRev_zero]; simp [parseDigsAux]
    · rw [digsRev_pos h]
      simp only [List.reverse_cons]
      rw [parseDigsAux_append]
      rw [ih (n / 10) (Nat.div_lt_self (Nat.pos_of_ne_zero h) (by omega)) acc]
      have hd : isDigit (48 + n % 10) = true := by
        have : n % 10 < 10 := Nat.mod_lt _ (by omega)
        simp [isDigit]; omega
      simp only [parseDigsAux, hd, if_true, List.length_cons]
      congr 1
      rw [pow_succ]
      generalize 10 ^ (digsRev (n / 10)).length = P
      have hA : acc * (P * 10) = acc * P * 10 := by ring
      rw [hA]
      generalize acc * P = A
      omega

theorem digsRev_ne_nil {n : Nat} (h : n ≠ 0) : digsRev n ≠ [] := by
  rw [digsRev_pos h]; simp

/-- Round trip: parsing the decimal encoding of a natural returns it. -/
theorem parseDecimal_encNat (n : Nat) : parseDecimal (encNat n) = some n := by
  by_cases h : n = 0
  · subst h; simp [encNat, parseDecimal, parseDigsAux, isDigit]
  · have hne : (digsRev n).reverse ≠ [] := by
      intro hc
      exact digsRev_ne_nil h (List.reverse_eq_nil_iff.mp hc)
    unfold encNat parseDecimal
    simp only [h, if_false]
    match hm : (digsRev n).reverse with
    | [] => exact absurd hm hne
    | b :: tl =>
      rw [← hm, parseDigsAux_digsRev n 0]
      simp

theorem encNat_digits (n : Nat) : ∀ b ∈ encNat n, 48 ≤ b ∧ b ≤ 57 := by
  intro b hb
  unfold encNat at hb
  by_cases h : n = 0
  · simp [h] at hb; omega
  · simp only [h, if_false, List.mem_reverse] at hb
    exact digsRev_digits n b hb

theorem encNat_no_cr (n : Nat) : 13 ∉ encNat n := by
  intro h
  have := encNat_digits n 13 h
  omega

theorem encNat_ne_nil (n : Nat) : encNat n ≠ [] := by
  unfold encNat
  by_cases h : n = 0
  · simp [h]
  · simp only [h, if_false]
    intro hc
    exact digsRev_ne_nil h (List.reverse_eq_nil_iff.mp hc)

/-- Round trip: parsing the decimal encoding of an integer returns it. -/
theorem parseIntTok_encInt (i : Int) : parseIntTok (encInt i) = some i := by
  unfold encInt
  by_cases h : i < 0
  · rw [if_pos h]
    have e1 : parseIntTok (45 :: encNat i.natAbs)
        = (parseDecimal (encNat i.natAbs)).map (fun n => -(n : Int)) := rfl
    rw [e1, parseDecimal_encNat]
    show some (-(i.natAbs : Int)) = some i
    congr 1
    omega
  · rw [if_neg h]
    have hd := encNat_digits i.toNat
    cases hm : encNat i.toNat with
    | nil => exact absurd hm (encNat_ne_nil i.toNat)
    | cons b tl =>
      have hb : 48 ≤ b ∧ b ≤ 57 := hd b (by rw [hm]; simp)
      have hb45 : ¬ (b = 45) := by omega
      have hp : parseDecimal (b :: tl) = some i.toNat := by rw [← hm, parseDecimal_encNat]
      simp only [parseIntTok]
      rw [if_neg hb45, hp]
      show some ((i.toNat : Int)) = some i
      congr 1
      exact Int.toNat_of_nonneg (by omega)

/-! ## ReplyFrame: the RESP3 tagged union of reply kinds

Modelled from the spec: the ReplyFrame data model (section 3) and the RESP3
wire grammar (section 6).  A map frame stores its key/value pairs flattened
in wire order; well-formedness requires the flattened list to have even
length.  Line-based payloads (simple string, error, double, big number) are
CRLF-free byte strings; bulk and verbatim payloads are length-prefixed and
binary safe.
-/

inductive RFrame where
  | simple (s : List Nat)
  | error (s : List Nat)
  | integer (n : Int)
  | bulk (s : List Nat)
  | null
  | boolean (b : Bool)
  | double (s : List Nat)
  | bignum (s : List Nat)
  | verbatim (s : List Nat)
  | array (xs : List RFrame)
  | set (xs : List RFrame)
  | push (xs : List RFrame)
  | map (kvs : List RFrame)

/-- Payload is free of CR and LF bytes (required for line-delimited kinds). -/
def noCRLF (s : List Nat) : Bool := s.all (fun b => b != 13 && b != 10)

mutual

/-- Well-formedness of a reply frame: line payloads are CRLF-free and a map
frame has an even number of flattened entries. -/
def wfF : RFrame → Bool
  | .simple s => noCRLF s
  | .error s => noCRLF s
  | .integer _ => true
  | .bulk _ => true
  | .null => true
  | .boolean _ => true
  | .double s => noCRLF s
  | .bignum s => noCRLF s
  | .verbatim _ => true
  | .array xs => wfL xs
  | .set xs => wfL xs
  | .push xs => wfL xs
  | .map kvs => decide (kvs.length % 2 = 0) && wfL kvs

/-- Well-formedness of a list of frames. -/
def wfL : List RFrame → Bool
  | [] => true
  | f :: tl => wfF f && wfL tl

end

mutual

/-- Modelled from the spec: RESP3 wire encoding of a reply frame
(section 6 frame grammar; the encoder side of the codec). -/
def encodeF : RFrame → List Nat
  | .simple s => 43 :: (s ++ [13, 10])
  | .error s => 45 :: (s ++ [13, 10])
  | .integer n => 58 :: (encInt n ++ [13, 10])
  | .bulk s => 36 :: (encNat s.length ++ [13, 10] ++ s ++ [13, 10])
  | .null => 95 :: [13, 10]
  | .boolean b => 35 :: ((if b then [116] else [102]) ++ [13, 10])
  | .double s => 44 :: (s ++ [13, 10])
  | .bignum s => 40 :: (s ++ [13, 10])
  | .verbatim s => 61 :: (encNat s.length ++ [13, 10] ++ s ++ [13, 10])
  | .array xs => 42 :: (encNat xs.length ++ [13, 10] ++ encodeList xs)
  | .set xs => 126 :: (encNat xs.length ++ [13, 10] ++ encodeList xs)
  | .push xs => 62 :: (encNat xs.length ++ [13, 10] ++ encodeList xs)
  | .map kvs => 37 :: (encNat (kvs.length / 2) ++ [13, 10] ++ encodeList kvs)

/-- Concatenated encodings of a list of frames. -/
def encodeList : List RFrame → List Nat
  | [] => []
  | f :: tl => encodeF f ++ encodeList tl

end

/-! ## The resumable decoder

Modelled from the spec: decode(buffer) -> (ReplyFrame | NeedMoreData,
consumed) (section 4.1).  The decoder walks the byte buffer; when the buffer
ends inside a frame it reports NeedMoreData (its retained state is the
buffered bytes themselves); a malformed byte signals a protocol error.  A CR
not yet followed by anything is incomplete input.  Recursion is bounded by
an explicit fuel argument; the public entry point supplies fuel that
provably suffices for any buffer of the given length.
-/

/-- Split a byte buffer at the first CRLF: the line before it and the bytes
after it; none when no complete CRLF-terminated line is present. -/
def readLine : List Nat → Option (List Nat × List Nat)
  | [] => none
  | b :: rest =>
    if b = 13 then
      match rest with
      | 10 :: r2 => some ([], r2)
      | _ => none
    else (readLine rest).map (fun p => (b :: p.1, p.2))

/-- A decoding job: a single frame, or a counted sequence of frames (the
elements of an aggregate frame). -/
inductive Job where
  | frame (bytes : List Nat)
  | elems (count : Nat) (bytes : List Nat)

/-- Result payload of a decoding job. -/
inductive JobOut where
  | fr (f : RFrame)
  | fl (fs : List RFrame)

/-- Decoder outcome: a decoded value plus unconsumed bytes, NeedMoreData, or
a protocol error. -/
inductive DecRes where
  | done (v : JobOut) (rest : List Nat)
  | more
  | protocolError

/-- Expect a CRLF terminator, then finish with the given output. -/
def eatCRLF (r : List Nat) (out : JobOut) : DecRes :=
  match r with
  | 13 :: 10 :: r2 => .done out r2
  | [] => .more
  | [13] => .more
  | _ => .protocolError

/-- Decode a line-delimited frame body (simple string, error, double, big
number). -/
def lineFrame (rest : List Nat) (mk : List Nat → RFrame) : DecRes :=
  match readLine rest with
  | none => .more
  | some (l, r) => .done (.fr (mk l)) r

/-- Decode a length-prefixed blob body (bulk string, verbatim string). -/
def blobFrame (rest : List Nat) (mk : List Nat → RFrame) : DecRes :=
  match readLine rest with
  | none => .more
  | some (l, r) =>
    match parseDecimal l with
    | some n =>
      if r.length < n + 2 then .more
      else
        match r.drop n with
        | 13 :: 10 :: r2 => .done (.fr (mk (r.take n))) r2
        | _ => .protocolError
    | none => .protocolError

/-- Wrap the result of decoding an aggregate's elements with the aggregate
constructor. -/
def wrapAgg (mk : List RFrame → RFrame) : DecRes → DecRes
  | .done (.fl fs) rest => .done (.fr (mk fs)) rest
  | .done (.fr _) _ => .protocolError
  | .more => .more
  | .protocolError => .protocolError

/-- Fuel-bounded decoder core.  Running out of fuel reports NeedMoreData;
the entry point `decode` always supplies enough fuel for its buffer. -/
def decodeCore : Nat → Job → DecRes
  | 0, _ => .more
  | _ + 1, .elems 0 bytes => .done (.fl []) bytes
  | fuel + 1, .elems (n + 1) bytes =>
    match decodeCore fuel (.frame bytes) with
    | .done (.fr f) rest =>
      match decodeCore fuel (.elems n rest) with
      | .done (.fl fs) rest2 => .done (.fl (f :: fs)) rest2
      | .done (.fr _) _ => .protocolError
      | .more => .more
      | .protocolError => .protocolError
    | .done (.fl _) _ => .protocolError
    | .more => .more
    | .protocolError => .protocolError
  | fuel + 1, .frame bytes =>
    match bytes with
    | [] => .more
    | t :: rest =>
      if t = 43 then lineFrame rest RFrame.simple
      else if t = 45 then lineFrame rest RFrame.error
      else if t = 44 then lineFrame rest RFrame.double
      else if t = 40 then lineFrame rest RFrame.bignum
      else if t = 58 then
        match readLine rest with
        | none => .more
        | some (l, r) =>
          match parseIntTok l with
          | some n => .done (.fr (.integer n)) r
          | none => .protocolError
      else if t = 36 then blobFrame rest RFrame.bulk
      else if t = 61 then blobFrame rest RFrame.verbatim
      else if t = 95 then eatCRLF rest (.fr .null)
      else if t = 35 then
        match rest with
        | 116 :: r2 => eatCRLF r2 (.fr (.boolean true))
        | 102 :: r2 => eatCRLF r2 (.fr (.boolean false))
        | [] => .more
        | _ => .protocolError
      else if t = 42 then
        match readLine rest with
        | none => .more
        | some (l, r) =>
          match parseDecimal l with
          | some n => wrapAgg RFrame.array (decodeCore fuel (.elems n r))
          | none => .protocolError
      else if t = 126 then
        match readLine rest with
        | none => .more
        | some (l, r) =>
          match parseDecimal l with
          | some n => wrapAgg RFrame.set (decodeCore fuel (.elems n r))
          | none => .protocolError
      else if t = 62 then
        match readLine rest with
        | none => .more
        | some (l, r) =>
          match parseDecimal l with
          | some n => wrapAgg RFrame.push (decodeCore fuel (.elems n r))
          | none => .protocolError
      else if t = 37 then
        match readLine rest with
        | none => .more
        | some (l, r) =>
          match parseDecimal l with
          | some n => wrapAgg RFrame.map (decodeCore fuel (.elems (2 * n) r))
          | none => .protocolError
      else .protocolError

mutual

/-- Fuel sufficient to decode one frame. -/
def needF : RFrame → Nat
  | .array xs => 1 + needL xs
  | .set xs => 1 + needL xs
  | .push xs => 1 + needL xs
  | .map kvs => 1 + needL kvs
  | _ => 1

/-- Fuel sufficient to decode a counted list of frames. -/
def needL : List RFrame → Nat
  | [] => 1
  | f :: tl => 1 + max (needF f) (needL tl)

end

theorem noCRLF_no13 {s : List Nat} (h : noCRLF s = true) : 13 ∉ s := by
  intro hc
  simp only [noCRLF, List.all_eq_true] at h
  have := h 13 hc
  simp at this

theorem encInt_no13 (i : Int) : 13 ∉ encInt i := by
  unfold encInt
  by_cases h : i < 0
  · rw [if_pos h]
    intro hc
    rcases List.mem_cons.mp hc with h1 | h1
    · omega
    · exact encNat_no_cr _ h1
  · rw [if_neg h]
    exact encNat_no_cr _

theorem readLine_append {s : List Nat} (h : 13 ∉ s) (r : List Nat) :
    readLine (s ++ 13 :: 10 :: r) = some (s, r) := by
  induction s with
  | nil => rfl
  | cons b tl ih =>
    have hb : ¬ (b = 13) := fun hc => h (by simp [hc])
    have htl : 13 ∉ tl := fun hc => h (List.mem_cons_of_mem _ hc)
    simp only [List.cons_append, readLine, if_neg hb, List.append_eq]
    rw [ih htl]
    rfl

theorem readLine_none {s : List Nat} (h : 13 ∉ s) : readLine s = none := by
  induction s with
  | nil => rfl
  | cons b tl ih =>
    have hb : ¬ (b = 13) := fun hc => h (by simp [hc])
    have htl : 13 ∉ tl := fun hc => h (List.mem_cons_of_mem _ hc)
    simp only [readLine, if_neg hb, List.append_eq]
    rw [ih htl]
    rfl

theorem readLine_cr {s : List Nat} (h : 13 ∉ s) : readLine (s ++ [13]) = none := by
  induction s with
  | nil => rfl
  | cons b tl ih =>
    have hb : ¬ (b = 13) := fun hc => h (by simp [hc])
    have htl : 13 ∉ tl := fun hc => h (List.mem_cons_of_mem _ hc)
    simp only [List.cons_append, readLine, if_neg hb, List.append_eq]
    rw [ih htl]
    rfl

theorem readLine_take {s : List Nat} (h : 13 ∉ s) {j : Nat} (hj : j < s.length + 2) :
    readLine (List.take j (s ++ [13, 10])) = none := by
  rcases Nat.lt_or_ge j (s.length + 1) with hc | hc
  · have hj2 : j ≤ s.length := by omega
    rw [List.take_append_eq_append_take]
    have hz : j - s.length = 0 := by omega
    rw [hz]
    simp only [List.take_zero, List.append_nil]
    exact readLine_none (fun hc2 => h (List.take_subset j s hc2))
  · have hje : j = s.length + 1 := by omega
    subst hje
    rw [List.take_append_eq_append_take]
    have h1 : List.take (s.length + 1) s = s := List.take_of_length_le (by omega)
    have h2 : s.length + 1 - s.length = 1 := by omega
    rw [h1, h2]
    exact readLine_cr h

theorem encNat_len_pos (n : Nat) : 0 < (encNat n).length :=
  List.length_pos.mpr (encNat_ne_nil n)

theorem three_le_encodeF_length (f : RFrame) : 3 ≤ (encodeF f).length := by
  cases f with
  | simple s => simp [encodeF]
  | error s => simp [encodeF]
  | integer n => simp [encodeF]
  | bulk s => simp [encodeF]; omega
  | null => simp [encodeF]
  | boolean b => cases b <;> simp [encodeF]
  | double s => simp [encodeF]
  | bignum s => simp [encodeF]
  | verbatim s => simp [encodeF]; omega
  | array xs => simp [encodeF]; have := encNat_len_pos xs.length; omega
  | set xs => simp [encodeF]; have := encNat_len_pos xs.length; omega
  | push xs => simp [encodeF]; have := encNat_len_pos xs.length; omega
  | map kvs => simp [encodeF]; have := encNat_len_pos (kvs.length / 2); omega

theorem one_le_needF (f : RFrame) : 1 ≤ needF f := by
  cases f <;> simp [needF]

theorem one_le_needL (xs : List RFrame) : 1 ≤ needL xs := by
  cases xs <;> simp [needL]

theorem decodeCore_zero (j : Job) : decodeCore 0 j = .more := rfl

theorem decodeCore_elems_zero (fuel : Nat) (bytes : List Nat) :
    decodeCore (fuel + 1) (.elems 0 bytes) = .done (.fl []) bytes := rfl

theorem decodeCore_elems_succ (fuel n : Nat) (bytes : List Nat) :
    decodeCore (fuel + 1) (.elems (n + 1) bytes) =
      match decodeCore fuel (.frame bytes) with
      | .done (.fr f) rest =>
        (match decodeCore fuel (.elems n rest) with
         | .done (.fl fs) rest2 => .done (.fl (f :: fs)) rest2
         | .done (.fr _) _ => .protocolError
         | .more => .more
         | .protocolError => .protocolError)
      | .done (.fl _) _ => .protocolError
      | .more => .more
      | .protocolError => .protocolError := rfl

theorem decodeCore_frame_nil (fuel : Nat) :
    decodeCore (fuel + 1) (.frame []) = .more := rfl

theorem decodeCore_simple (fuel : Nat) (rest : List Nat) :
    decodeCore (fuel + 1) (.frame (43 :: rest)) = lineFrame rest RFrame.simple := rfl

theorem decodeCore_error (fuel : Nat) (rest : List Nat) :
    decodeCore (fuel + 1) (.frame (45 :: rest)) = lineFrame rest RFrame.error := rfl

theorem decodeCore_double (fuel : Nat) (rest : List Nat) :
    decodeCore (fuel + 1) (.frame (44 :: rest)) = lineFrame rest RFrame.double := rfl

theorem decodeCore_bignum (fuel : Nat) (rest : List Nat) :
    decodeCore (fuel + 1) (.frame (40 :: rest)) = lineFrame rest RFrame.bignum := rfl

theorem decodeCore_integer (fuel : Nat) (rest : List Nat) :
    decodeCore (fuel + 1) (.frame (58 :: rest)) =
      match readLine rest with
      | none => .more
      | some (l, r) =>
        (match parseIntTok l with
         | some n => .done (.fr (.integer n)) r
         | none => .protocolError) := rfl

theorem decodeCore_bulk (fuel : Nat) (rest : List Nat) :
    decodeCore (fuel + 1) (.frame (36 :: rest)) = blobFrame rest RFrame.bulk := rfl

theorem decodeCore_verbatim (fuel : Nat) (rest : List Nat) :
    decodeCore (fuel + 1) (.frame (61 :: rest)) = blobFrame rest RFrame.verbatim := rfl

theorem decodeCore_null (fuel : Nat) (rest : List Nat) :
    decodeCore (fuel + 1) (.frame (95 :: rest)) = eatCRLF rest (.fr .null) := rfl

theorem decodeCore_boolean (fuel : Nat) (rest : List Nat) :
    decodeCore (fuel + 1) (.frame (35 :: rest)) =
      match rest with
      | 116 :: r2 => eatCRLF r2 (.fr (.boolean true))
      | 102 :: r2 => eatCRLF r2 (.fr (.boolean false))
      | [] => .more
      | _ => .protocolError := rfl

theorem decodeCore_array (fuel : Nat) (rest : List Nat) :
    decodeCore (fuel + 1) (.frame (42 :: rest)) =
      match readLine rest with
      | none => .more
      | some (l, r) =>
        (match parseDecimal l with
         | some n => wrapAgg RFrame.array (decodeCore fuel (.elems n r))
         | none => .protocolError) := rfl

theorem decodeCore_set (fuel : Nat) (rest : List Nat) :
    decodeCore (fuel + 1) (.frame (126 :: rest)) =
      match readLine rest with
      | none => .more
      | some (l, r) =>
        (match parseDecimal l with
         | some n => wrapAgg RFrame.set (decodeCore fuel (.elems n r))
         | none => .protocolError) := rfl

theorem decodeCore_push (fuel : Nat) (rest : List Nat) :
    decodeCore (fuel + 1) (.frame (62 :: rest)) =
      match readLine rest with
      | none => .more
      | some (l, r) =>
        (match parseDecimal l with
         | some n => wrapAgg RFrame.push (decodeCore fuel (.elems n r))
         | none => .protocolError) := rfl

theorem decodeCore_map (fuel : Nat) (rest : List Nat) :
    decodeCore (fuel + 1) (.frame (37 :: rest)) =
      match readLine rest with
      | none => .more
      | some (l, r) =>
        (match parseDecimal l with
         | some n => wrapAgg RFrame.map (decodeCore fuel (.elems (2 * n) r))
         | none => .protocolError) := rfl

theorem wfL_cons {f : RFrame} {tl : List RFrame} (h : wfL (f :: tl) = true) :
    wfF f = true ∧ wfL tl = true := by
  simpa [wfL, Bool.and_eq_true] using h

theorem wrapAgg_done_fl (mk : List RFrame → RFrame) (fs : List RFrame) (rest : List Nat) :
    wrapAgg mk (.done (.fl fs) rest) = .done (.fr (mk fs)) rest := rfl

theorem wrapAgg_more (mk : List RFrame → RFrame) : wrapAgg mk .more = .more := rfl

theorem lineFrame_encoded (s rest : List Nat) (h13 : 13 ∉ s) (mk : List Nat → RFrame) :
    lineFrame (s ++ 13 :: 10 :: rest) mk = .done (.fr (mk s)) rest := by
  unfold lineFrame
  rw [readLine_append h13]

theorem blobFrame_encoded (s rest : List Nat) (mk : List Nat → RFrame) :
    blobFrame (encNat s.length ++ 13 :: 10 :: (s ++ 13 :: 10 :: rest)) mk
      = .done (.fr (mk s)) rest := by
  unfold blobFrame
  rw [readLine_append (encNat_no_cr s.length)]
  simp only [parseDecimal_encNat]
  have hlen : ¬ ((s ++ 13 :: 10 :: rest).length < s.length + 2) := by
    simp [List.length_append]
  rw [if_neg hlen]
  rw [List.drop_left, List.take_left]

mutual

/-- Decoding the encoding of a well-formed frame (followed by any trailing
bytes) either succeeds with exactly that frame and the trailing bytes, or
reports NeedMoreData because the fuel is insufficient. -/
theorem decode_encodeF (f : RFrame) (hf : wfF f = true) (fuel : Nat) (rest : List Nat) :
    decodeCore fuel (.frame (encodeF f ++ rest)) = .done (.fr f) rest ∨
    (decodeCore fuel (.frame (encodeF f ++ rest)) = .more ∧ fuel < needF f) := by
  cases fuel with
  | zero => exact Or.inr ⟨rfl, one_le_needF f⟩
  | succ fu =>
    cases f with
    | simple s =>
      left
      have h13 : 13 ∉ s := noCRLF_no13 (by simpa [wfF] using hf)
      have e : encodeF (.simple s) ++ rest = 43 :: (s ++ 13 :: 10 :: rest) := by
        simp [encodeF]
      rw [e, decodeCore_simple, lineFrame_encoded s rest h13]
    | error s =>
      left
      have h13 : 13 ∉ s := noCRLF_no13 (by simpa [wfF] using hf)
      have e : encodeF (.error s) ++ rest = 45 :: (s ++ 13 :: 10 :: rest) := by
        simp [encodeF]
      rw [e, decodeCore_error, lineFrame_encoded s rest h13]
    | double s =>
      left
      have h13 : 13 ∉ s := noCRLF_no13 (by simpa [wfF] using hf)
      have e : encodeF (.double s) ++ rest = 44 :: (s ++ 13 :: 10 :: rest) := by
        simp [encodeF]
      rw [e, decodeCore_double, lineFrame_encoded s rest h13]
    | bignum s =>
      left
      have h13 : 13 ∉ s := noCRLF_no13 (by simpa [wfF] using hf)
      have e : encodeF (.bignum s) ++ rest = 40 :: (s ++ 13 :: 10 :: rest) := by
        simp [encodeF]
      rw [e, decodeCore_bignum, lineFrame_encoded s rest h13]
    | integer n =>
      left
      have e : encodeF (.integer n) ++ rest = 58 :: (encInt n ++ 13 :: 10 :: rest) := by
        simp [encodeF]
      rw [e, decodeCore_integer, readLine_append (encInt_no13 n)]
      simp only [parseIntTok_encInt]
    | bulk s =>
      left
      have e : encodeF (.bulk s) ++ rest
          = 36 :: (encNat s.length ++ 13 :: 10 :: (s ++ 13 :: 10 :: rest)) := by
        simp [encodeF]
      rw [e, decodeCore_bulk, blobFrame_encoded s rest RFrame.bulk]
    | verbatim s =>
      left
      have e : encodeF (.verbatim s) ++ rest
          = 61 :: (encNat s.length ++ 13 :: 10 :: (s ++ 13 :: 10 :: rest)) := by
        simp [encodeF]
      rw [e, decodeCore_verbatim, blobFrame_encoded s rest RFrame.verbatim]
    | null =>
      left
      have e : encodeF .null ++ rest = 95 :: (13 :: 10 :: rest) := by simp [encodeF]
      rw [e, decodeCore_null]
      rfl
    | boolean b =>
      left
      cases b with
      | true =>
        have e : encodeF (.boolean true) ++ rest = 35 :: (116 :: (13 :: 10 :: rest)) := by
          simp [encodeF]
        rw [e, decodeCore_boolean]
        rfl
      | false =>
        have e : encodeF (.boolean false) ++ rest = 35 :: (102 :: (13 :: 10 :: rest)) := by
          simp [encodeF]
        rw [e, decodeCore_boolean]
        rfl
    | array xs =>
      have hwl : wfL xs = true := by simpa [wfF] using hf
      have e : encodeF (.array xs) ++ rest
          = 42 :: (encNat xs.length ++ 13 :: 10 :: (encodeList xs ++ rest)) := by
        simp [encodeF]
      rw [e, decodeCore_array, readLine_append (encNat_no_cr xs.length)]
      simp only [parseDecimal_encNat]
      rcases decode_encodeL xs hwl fu rest with h | ⟨h, hlt⟩
      · left
        rw [h, wrapAgg_done_fl]
      · right
        refine ⟨by rw [h, wrapAgg_more], ?_⟩
        have hn : needF (RFrame.array xs) = 1 + needL xs := rfl
        omega
    | set xs =>
      have hwl : wfL xs = true := by simpa [wfF] using hf
      have e : encodeF (.set xs) ++ rest
          = 126 :: (encNat xs.length ++ 13 :: 10 :: (encodeList xs ++ rest)) := by
        simp [encodeF]
      rw [e, decodeCore_set, readLine_append (encNat_no_cr xs.length)]
      simp only [parseDecimal_encNat]
      rcases decode_encodeL xs hwl fu rest with h | ⟨h, hlt⟩
      · left
        rw [h, wrapAgg_done_fl]
      · right
        refine ⟨by rw [h, wrapAgg_more], ?_⟩
        have hn : needF (RFrame.set xs) = 1 + needL xs := rfl
        omega
    | push xs =>
      have hwl : wfL xs = true := by simpa [wfF] using hf
      have e : encodeF (.push xs) ++ rest
          = 62 :: (encNat xs.length ++ 13 :: 10 :: (encodeList xs ++ rest)) := by
        simp [encodeF]
      rw [e, decodeCore_push, readLine_append (encNat_no_cr xs.length)]
      simp only [parseDecimal_encNat]
      rcases decode_encodeL xs hwl fu rest with h | ⟨h, hlt⟩
      · left
        rw [h, wrapAgg_done_fl]
      · right
        refine ⟨by rw [h, wrapAgg_more], ?_⟩
        have hn : needF (RFrame.push xs) = 1 + needL xs := rfl
        omega
    | map kvs =>
      have hev : kvs.length % 2 = 0 ∧ wfL kvs = true := by
        simpa [wfF, Bool.and_eq_true] using hf
      have e : encodeF (.map kvs) ++ rest
          = 37 :: (encNat (kvs.length / 2) ++ 13 :: 10 :: (encodeList kvs ++ rest)) := by
        simp [encodeF]
      rw [e, decodeCore_map, readLine_append (encNat_no_cr (kvs.length / 2))]
      simp only [parseDecimal_encNat]
      have h2 : 2 * (kvs.length / 2) = kvs.length := by omega
      rw [h2]
      rcases decode_encodeL kvs hev.2 fu rest with h | ⟨h, hlt⟩
      · left
        rw [h, wrapAgg_done_fl]
      · right
        refine ⟨by rw [h, wrapAgg_more], ?_⟩
        have hn : needF (RFrame.map kvs) = 1 + needL kvs := rfl
        omega

/-- Decoding the concatenated encodings of a well-formed frame list (followed
by trailing bytes), with the list's length as the element count, either
succeeds with exactly those frames, or reports NeedMoreData because the fuel
is insufficient. -/
theorem decode_encodeL (xs : List RFrame) (hxs : wfL xs = true) (fuel : Nat) (rest : List Nat) :
    decodeCore fuel (.elems xs.length (encodeList xs ++ rest)) = .done (.fl xs) rest ∨
    (decodeCore fuel (.elems xs.length (encodeList xs ++ rest)) = .more ∧ fuel < needL xs) := by
  cases fuel with
  | zero => exact Or.inr ⟨rfl, one_le_needL xs⟩
  | succ fu =>
    cases xs with
    | nil =>
      left
      have e : encodeList [] ++ rest = rest := by simp [encodeList]
      rw [e]
      simp only [List.length_nil, decodeCore_elems_zero]
    | cons f tl =>
      obtain ⟨hwf, hwtl⟩ := wfL_cons hxs
      have e : encodeList (f :: tl) ++ rest = encodeF f ++ (encodeList tl ++ rest) := by
        simp [encodeList]
      rw [e]
      simp only [List.length_cons, decodeCore_elems_succ]
      rcases decode_encodeF f hwf fu (encodeList tl ++ rest) with h1 | ⟨h1, hlt1⟩
      · simp only [h1]
        rcases decode_encodeL tl hwtl fu rest with h2 | ⟨h2, hlt2⟩
        · left
          simp only [h2]
        · right
          refine ⟨by simp only [h2], ?_⟩
          have hn : needL (f :: tl) = 1 + max (needF f) (needL tl) := rfl
          omega
      · right
        refine ⟨by simp only [h1], ?_⟩
        have hn : needL (f :: tl) = 1 + max (needF f) (needL tl) := rfl
        omega

end

theorem readLine_take' {s : List Nat} (h13 : 13 ∉ s) (X : List Nat) {j : Nat}
    (hj : j < s.length + 2) :
    readLine (List.take j (s ++ 13 :: 10 :: X)) = none := by
  rcases Nat.lt_or_ge j (s.length + 1) with hc | hc
  · have hj2 : j ≤ s.length := by omega
    rw [List.take_append_eq_append_take]
    have hz : j - s.length = 0 := by omega
    rw [hz]
    simp only [List.take_zero, List.append_nil]
    exact readLine_none (fun hc2 => h13 (List.take_subset j s hc2))
  · have hje : j = s.length + 1 := by omega
    subst hje
    rw [List.take_append_eq_append_take]
    have h1 : List.take (s.length + 1) s = s := List.take_of_length_le (by omega)
    have h2 : s.length + 1 - s.length = 1 := by omega
    rw [h1, h2]
    show readLine (s ++ [13]) = none
    exact readLine_cr h13

theorem take_append_ge {α : Type} (a b : List α) {j : Nat} (h : a.length ≤ j) :
    (a ++ b).take j = a ++ b.take (j - a.length) := by
  rw [List.take_append_eq_append_take, List.take_of_length_le h]

theorem take_append_le {α : Type} (a b : List α) {j : Nat} (h : j ≤ a.length) :
    (a ++ b).take j = a.take j := by
  rw [List.take_append_eq_append_take]
  have hz : j - a.length = 0 := by omega
  rw [hz, List.take_zero, List.append_nil]

theorem take_cons2_ge {α : Type} (x y : α) (b : List α) {m : Nat} (h : 2 ≤ m) :
    (x :: y :: b).take m = x :: y :: b.take (m - 2) := by
  obtain ⟨m', rfl⟩ : ∃ m', m = m' + 2 := ⟨m - 2, by omega⟩
  simp [List.take_succ_cons]

theorem blobFrame_take_more (s : List Nat) {j : Nat}
    (hj : j < (encNat s.length ++ 13 :: 10 :: (s ++ [13, 10])).length)
    (mk : List Nat → RFrame) :
    blobFrame (List.take j (encNat s.length ++ 13 :: 10 :: (s ++ [13, 10]))) mk = .more := by
  by_cases hc : j < (encNat s.length).length + 2
  · unfold blobFrame
    rw [readLine_take' (encNat_no_cr s.length) (s ++ [13, 10]) hc]
  · push_neg at hc
    rw [take_append_ge _ _ (by omega), take_cons2_ge _ _ _ (by omega)]
    unfold blobFrame
    rw [readLine_append (encNat_no_cr s.length)]
    simp only [parseDecimal_encNat]
    have hlt : (List.take (j - (encNat s.length).length - 2) (s ++ [13, 10])).length
        < s.length + 2 := by
      rw [List.length_take]
      simp only [List.length_append, List.length_cons, List.length_nil] at hj ⊢
      omega
    rw [if_pos hlt]

mutual

/-- Decoding any proper prefix of the encoding of a well-formed frame
reports NeedMoreData, never success or a protocol error, at every fuel. -/
theorem decodePre_F (f : RFrame) (hf : wfF f = true) (fuel : Nat) :
    ∀ j, j < (encodeF f).length → decodeCore fuel (.frame (List.take j (encodeF f))) = .more := by
  cases fuel with
  | zero => intro j hj; rfl
  | succ fu =>
    intro j hj
    cases j with
    | zero =>
      rw [List.take_zero]
      exact decodeCore_frame_nil fu
    | succ j' =>
      cases f with
      | simple s =>
        have h13 : 13 ∉ s := noCRLF_no13 (by simpa [wfF] using hf)
        have hlen : j' < s.length + 2 := by
          simp only [encodeF, List.length_cons, List.length_append,
            List.length_nil] at hj
          omega
        show decodeCore (fu + 1) (.frame (List.take (j' + 1) (43 :: (s ++ [13, 10])))) = .more
        rw [List.take_succ_cons, decodeCore_simple]
        unfold lineFrame
        rw [readLine_take' h13 [] hlen]
      | error s =>
        have h13 : 13 ∉ s := noCRLF_no13 (by simpa [wfF] using hf)
        have hlen : j' < s.length + 2 := by
          simp only [encodeF, List.length_cons, List.length_append,
            List.length_nil] at hj
          omega
        show decodeCore (fu + 1) (.frame (List.take (j' + 1) (45 :: (s ++ [13, 10])))) = .more
        rw [List.take_succ_cons, decodeCore_error]
        unfold lineFrame
        rw [readLine_take' h13 [] hlen]
      | double s =>
        have h13 : 13 ∉ s := noCRLF_no13 (by simpa [wfF] using hf)
        have hlen : j' < s.length + 2 := by
          simp only [encodeF, List.length_cons, List.length_append,
            List.length_nil] at hj
          omega
        show decodeCore (fu + 1) (.frame (List.take (j' + 1) (44 :: (s ++ [13, 10])))) = .more
        rw [List.take_succ_cons, decodeCore_double]
        unfold lineFrame
        rw [readLine_take' h13 [] hlen]
      | bignum s =>
        have h13 : 13 ∉ s := noCRLF_no13 (by simpa [wfF] using hf)
        have hlen : j' < s.length + 2 := by
          simp only [encodeF, List.length_cons, List.length_append,
            List.length_nil] at hj
          omega
        show decodeCore (fu + 1) (.frame (List.take (j' + 1) (40 :: (s ++ [13, 10])))) = .more
        rw [List.take_succ_cons, decodeCore_bignum]
        unfold lineFrame
        rw [readLine_take' h13 [] hlen]
      | integer n =>
        have hlen : j' < (encInt n).length + 2 := by
          simp only [encodeF, List.length_cons, List.length_append,
            List.length_nil] at hj
          omega
        show decodeCore (fu + 1)
            (.frame (List.take (j' + 1) (58 :: (encInt n ++ [13, 10])))) = .more
        rw [List.take_succ_cons, decodeCore_integer]
        rw [readLine_take' (encInt_no13 n) [] hlen]
      | bulk s =>
        have hlen : j' < (encNat s.length ++ 13 :: 10 :: (s ++ [13, 10])).length := by
          simp only [encodeF, List.length_cons, List.length_append,
            List.length_nil] at hj ⊢
          omega
        have e : encodeF (.bulk s)
            = 36 :: (encNat s.length ++ 13 :: 10 :: (s ++ [13, 10])) := by
          simp [encodeF]
        rw [e, List.take_succ_cons, decodeCore_bulk]
        exact blobFrame_take_more s hlen RFrame.bulk
      | verbatim s =>
        have hlen : j' < (encNat s.length ++ 13 :: 10 :: (s ++ [13, 10])).length := by
          simp only [encodeF, List.length_cons, List.length_append,
            List.length_nil] at hj ⊢
          omega
        have e : encodeF (.verbatim s)
            = 61 :: (encNat s.length ++ 13 :: 10 :: (s ++ [13, 10])) := by
          simp [encodeF]
        rw [e, List.take_succ_cons, decodeCore_verbatim]
        exact blobFrame_take_more s hlen RFrame.verbatim
      | null =>
        have hlen : j' < 2 := by
          simp only [encodeF, List.length_cons, List.length_nil] at hj
          omega
        show decodeCore (fu + 1) (.frame (List.take (j' + 1) (95 :: [13, 10]))) = .more
        rw [List.take_succ_cons, decodeCore_null]
        interval_cases j' <;> rfl
      | boolean b =>
        cases b with
        | true =>
          have hlen : j' < 3 := by
            simp only [encodeF, List.length_cons, List.length_append,
              List.length_nil, if_true] at hj
            omega
          show decodeCore (fu + 1)
              (.frame (List.take (j' + 1) (35 :: ([116] ++ [13, 10])))) = .more
          rw [List.take_succ_cons, decodeCore_boolean]
          interval_cases j' <;> rfl
        | false =>
          have hlen : j' < 3 := by
            simp [encodeF] at hj
            omega
          show decodeCore (fu + 1)
              (.frame (List.take (j' + 1) (35 :: ([102] ++ [13, 10])))) = .more
          rw [List.take_succ_cons, decodeCore_boolean]
          interval_cases j' <;> rfl
      | array xs =>
        have hwl : wfL xs = true := by simpa [wfF] using hf
        have e : encodeF (.array xs)
            = 42 :: (encNat xs.length ++ 13 :: 10 :: encodeList xs) := by
          simp [encodeF]
        rw [e] at hj ⊢
        rw [List.take_succ_cons, decodeCore_array]
        by_cases hc : j' < (encNat xs.length).length + 2
        · rw [readLine_take' (encNat_no_cr xs.length) (encodeList xs) hc]
        · push_neg at hc
          rw [take_append_ge _ _ (by omega), take_cons2_ge _ _ _ (by omega)]
          rw [readLine_append (encNat_no_cr xs.length)]
          simp only [parseDecimal_encNat]
          have hm : j' - (encNat xs.length).length - 2 < (encodeList xs).length := by
            simp only [List.length_cons, List.length_append] at hj
            omega
          rw [decodePre_L xs hwl fu _ hm, wrapAgg_more]
      | set xs =>
        have hwl : wfL xs = true := by simpa [wfF] using hf
        have e : encodeF (.set xs)
            = 126 :: (encNat xs.length ++ 13 :: 10 :: encodeList xs) := by
          simp [encodeF]
        rw [e] at hj ⊢
        rw [List.take_succ_cons, decodeCore_set]
        by_cases hc : j' < (encNat xs.length).length + 2
        · rw [readLine_take' (encNat_no_cr xs.length) (encodeList xs) hc]
        · push_neg at hc
          rw [take_append_ge _ _ (by omega), take_cons2_ge _ _ _ (by omega)]
          rw [readLine_append (encNat_no_cr xs.length)]
          simp only [parseDecimal_encNat]
          have hm : j' - (encNat xs.length).length - 2 < (encodeList xs).length := by
            simp only [List.length_cons, List.length_append] at hj
            omega
          rw [decodePre_L xs hwl fu _ hm, wrapAgg_more]
      | push xs =>
        have hwl : wfL xs = true := by simpa [wfF] using hf
        have e : encodeF (.push xs)
            = 62 :: (encNat xs.length ++ 13 :: 10 :: encodeList xs) := by
          simp [encodeF]
        rw [e] at hj ⊢
        rw [List.take_succ_cons, decodeCore_push]
        by_cases hc : j' < (encNat xs.length).length + 2
        · rw [readLine_take' (encNat_no_cr xs.length) (encodeList xs) hc]
        · push_neg at hc
          rw [take_append_ge _ _ (by omega), take_cons2_ge _ _ _ (by omega)]
          rw [readLine_append (encNat_no_cr xs.length)]
          simp only [parseDecimal_encNat]
          have hm : j' - (encNat xs.length).length - 2 < (encodeList xs).length := by
            simp only [List.length_cons, List.length_append] at hj
            omega
          rw [decodePre_L xs hwl fu _ hm, wrapAgg_more]
      | map kvs =>
        have hev : kvs.length % 2 = 0 ∧ wfL kvs = true := by
          simpa [wfF, Bool.and_eq_true] using hf
        have e : encodeF (.map kvs)
            = 37 :: (encNat (kvs.length / 2) ++ 13 :: 10 :: encodeList kvs) := by
          simp [encodeF]
        rw [e] at hj ⊢
        rw [List.take_succ_cons, decodeCore_map]
        by_cases hc : j' < (encNat (kvs.length / 2)).length + 2
        · rw [readLine_take' (encNat_no_cr (kvs.length / 2)) (encodeList kvs) hc]
        · push_neg at hc
          rw [take_append_ge _ _ (by omega), take_cons2_ge _ _ _ (by omega)]
          rw [readLine_append (encNat_no_cr (kvs.length / 2))]
          simp only [parseDecimal_encNat]
          have h2 : 2 * (kvs.length / 2) = kvs.length := by omega
          rw [h2]
          have hm : j' - (encNat (kvs.length / 2)).length - 2 < (encodeList kvs).length := by
            simp only [List.length_cons, List.length_append] at hj
            omega
          rw [decodePre_L kvs hev.2 fu _ hm, wrapAgg_more]

/-- Decoding any proper prefix of the concatenated encodings of a
well-formed frame list, with the list's length as element count, reports
NeedMoreData at every fuel. -/
theorem decodePre_L (xs : List RFrame) (hxs : wfL xs = true) (fuel : Nat) :
    ∀ j, j < (encodeList xs).length →
      decodeCore fuel (.elems xs.length (List.take j (encodeList xs))) = .more := by
  cases fuel with
  | zero => intro j hj; rfl
  | succ fu =>
    intro j hj
    cases xs with
    | nil => simp [encodeList] at hj
    | cons f tl =>
      obtain ⟨hwf, hwtl⟩ := wfL_cons hxs
      have e : encodeList (f :: tl) = encodeF f ++ encodeList tl := by
        simp [encodeList]
      rw [e] at hj ⊢
      simp only [List.length_cons, decodeCore_elems_succ]
      by_cases hc : j < (encodeF f).length
      · rw [take_append_le _ _ (by omega)]
        rw [decodePre_F f hwf fu j hc]
      · push_neg at hc
        rw [take_append_ge _ _ hc]
        rcases decode_encodeF f hwf fu (List.take (j - (encodeF f).length) (encodeList tl))
          with h1 | ⟨h1, _⟩
        · simp only [h1]
          have hm : j - (encodeF f).length < (encodeList tl).length := by
            simp only [List.length_append] at hj
            omega
          rw [decodePre_L tl hwtl fu _ hm]
        · simp only [h1]

end

mutual

/-- The fuel needed for one frame is bounded by its encoded length. -/
theorem needF_le (f : RFrame) : needF f ≤ 3 * (encodeF f).length := by
  cases f with
  | simple s =>
    have h3 := three_le_encodeF_length (RFrame.simple s)
    show 1 ≤ 3 * (encodeF (RFrame.simple s)).length
    omega
  | error s =>
    have h3 := three_le_encodeF_length (RFrame.error s)
    show 1 ≤ 3 * (encodeF (RFrame.error s)).length
    omega
  | integer n =>
    have h3 := three_le_encodeF_length (RFrame.integer n)
    show 1 ≤ 3 * (encodeF (RFrame.integer n)).length
    omega
  | bulk s =>
    have h3 := three_le_encodeF_length (RFrame.bulk s)
    show 1 ≤ 3 * (encodeF (RFrame.bulk s)).length
    omega
  | null =>
    have h3 := three_le_encodeF_length RFrame.null
    show 1 ≤ 3 * (encodeF RFrame.null).length
    omega
  | boolean b =>
    have h3 := three_le_encodeF_length (RFrame.boolean b)
    show 1 ≤ 3 * (encodeF (RFrame.boolean b)).length
    omega
  | double s =>
    have h3 := three_le_encodeF_length (RFrame.double s)
    show 1 ≤ 3 * (encodeF (RFrame.double s)).length
    omega
  | bignum s =>
    have h3 := three_le_encodeF_length (RFrame.bignum s)
    show 1 ≤ 3 * (encodeF (RFrame.bignum s)).length
    omega
  | verbatim s =>
    have h3 := three_le_encodeF_length (RFrame.verbatim s)
    show 1 ≤ 3 * (encodeF (RFrame.verbatim s)).length
    omega
  | array xs =>
    have h1 := needL_le xs
    have h2 := encNat_len_pos xs.length
    show 1 + needL xs ≤ 3 * (encodeF (RFrame.array xs)).length
    have e : (encodeF (RFrame.array xs)).length
        = 1 + ((encNat xs.length).length + (2 + (encodeList xs).length)) := by
      simp [encodeF]
      omega
    rw [e]
    omega
  | set xs =>
    have h1 := needL_le xs
    have h2 := encNat_len_pos xs.length
    show 1 + needL xs ≤ 3 * (encodeF (RFrame.set xs)).length
    have e : (encodeF (RFrame.set xs)).length
        = 1 + ((encNat xs.length).length + (2 + (encodeList xs).length)) := by
      simp [encodeF]
      omega
    rw [e]
    omega
  | push xs =>
    have h1 := needL_le xs
    have h2 := encNat_len_pos xs.length
    show 1 + needL xs ≤ 3 * (encodeF (RFrame.push xs)).length
    have e : (encodeF (RFrame.push xs)).length
        = 1 + ((encNat xs.length).length + (2 + (encodeList xs).length)) := by
      simp [encodeF]
      omega
    rw [e]
    omega
  | map kvs =>
    have h1 := needL_le kvs
    have h2 := encNat_len_pos (kvs.length / 2)
    show 1 + needL kvs ≤ 3 * (encodeF (RFrame.map kvs)).length
    have e : (encodeF (RFrame.map kvs)).length
        = 1 + ((encNat (kvs.length / 2)).length + (2 + (encodeList kvs).length)) := by
      simp [encodeF]
      omega
    rw [e]
    omega

/-- The fuel needed for a frame list is bounded by its encoded length. -/
theorem needL_le (xs : List RFrame) : needL xs ≤ 3 * (encodeList xs).length + 2 := by
  cases xs with
  | nil =>
    show 1 ≤ 3 * (encodeList ([] : List RFrame)).length + 2
    have e : encodeList ([] : List RFrame) = [] := rfl
    rw [e]
    simp
  | cons f tl =>
    have h1 := needF_le f
    have h2 := needL_le tl
    have h3 := three_le_encodeF_length f
    show 1 + max (needF f) (needL tl) ≤ 3 * (encodeList (f :: tl)).length + 2
    have e : encodeList (f :: tl) = encodeF f ++ encodeList tl := rfl
    rw [e, List.length_append]
    omega

end

/-- Modelled from the spec: the decoder entry point; the retained state of a
NeedMoreData result is the buffered bytes themselves, so a caller resumes by
calling again on the buffered bytes plus the newly arrived ones.  The fuel
supplied here provably suffices for any frame fitting in the buffer. -/
def decode (bytes : List Nat) : DecRes :=
  decodeCore (3 * bytes.length + 3) (.frame bytes)

/-- Decoding a well-formed frame's full encoding plus trailing bytes
succeeds and consumes exactly the frame. -/
theorem decode_encodeF_done (f : RFrame) (hf : wfF f = true) (rest : List Nat) :
    decode (encodeF f ++ rest) = .done (.fr f) rest := by
  unfold decode
  rcases decode_encodeF f hf (3 * (encodeF f ++ rest).length + 3) rest with h | ⟨h, hlt⟩
  · exact h
  · exfalso
    have h1 := needF_le f
    have h2 : (encodeF f).length ≤ (encodeF f ++ rest).length := by
      simp [List.length_append]
    omega

/-- Decoding a proper prefix of a well-formed frame's encoding reports
NeedMoreData. -/
theorem decode_take_more (f : RFrame) (hf : wfF f = true) {j : Nat}
    (hj : j < (encodeF f).length) :
    decode (List.take j (encodeF f)) = .more := by
  unfold decode
  exact decodePre_F f hf _ j hj

/-- Modelled from the spec: feeding the decoder a first chunk and then a
second chunk: a complete frame in the first chunk keeps its result (later
bytes only extend the unconsumed remainder); a NeedMoreData result retains
the buffered bytes as state, and the second call runs on the buffered bytes
followed by the new ones. -/
def feedTwice (c1 c2 : List Nat) : DecRes :=
  match decode c1 with
  | .done v rest => .done v (rest ++ c2)
  | .more => decode (c1 ++ c2)
  | .protocolError => .protocolError

/-- C2: for every well-formed encoded reply frame and every split position,
decoding the first part (possibly getting NeedMoreData without losing state)
and resuming with the second part yields the identical final decoded frame
as decoding the whole buffer in one call. -/
theorem c2_decoder_resumable (f : RFrame) (hf : wfF f = true) (i : Nat)
    (hi : i ≤ (encodeF f).length) :
    feedTwice (List.take i (encodeF f)) (List.drop i (encodeF f)) = decode (encodeF f) ∧
    decode (encodeF f) = .done (.fr f) [] := by
  have hfull : decode (encodeF f) = .done (.fr f) [] := by
    have h := decode_encodeF_done f hf []
    rwa [List.append_nil] at h
  refine ⟨?_, hfull⟩
  rcases Nat.lt_or_ge i (encodeF f).length with hlt | hge
  · unfold feedTwice
    rw [decode_take_more f hf hlt, List.take_append_drop]
  · have hi' : i = (encodeF f).length := by omega
    subst hi'
    unfold feedTwice
    rw [List.take_length, List.drop_length, hfull]
    rfl

/-- Witness for C2 at the simple-string frame +OK and split position 2. -/
theorem c2_decoder_resumable_witness :
    feedTwice (List.take 2 (encodeF (.simple [79, 75]))) (List.drop 2 (encodeF (.simple [79, 75])))
        = decode (encodeF (.simple [79, 75])) ∧
    decode (encodeF (.simple [79, 75])) = .done (.fr (.simple [79, 75])) [] :=
  c2_decoder_resumable (.simple [79, 75]) (by decide) 2 (by decide)

/-! ## Command pipeline: FIFO reply matching

Modelled from the spec: the per-connection Command Pipeline (section 4.2).
Pending commands (identified here by numeric ids) sit in a strict FIFO;
bytes arrive in arbitrary chunks; each complete decoded frame resolves the
oldest pending entry.  The drain loop's fuel is the buffer length plus one,
which provably suffices since every frame consumes at least three bytes.
-/

theorem encodeList_append (a b : List RFrame) :
    encodeList (a ++ b) = encodeList a ++ encodeList b := by
  induction a with
  | nil => simp [encodeList]
  | cons f tl ih => simp [encodeList, ih, List.append_assoc]

theorem wfL_drop (fs : List RFrame) (hwf : wfL fs = true) (k : Nat) :
    wfL (fs.drop k) = true := by
  induction fs generalizing k with
  | nil => rw [List.drop_nil]; exact hwf
  | cons f tl ih =>
    cases k with
    | zero => exact hwf
    | succ k' =>
      rw [List.drop_succ_cons]
      exact ih (wfL_cons hwf).2 k'

theorem zip_take_drop {α β : Type} (ids : List α) (fs : List β)
    (h : ids.length = fs.length) (k : Nat) :
    (ids.take k).zip (fs.take k) ++ (ids.drop k).zip (fs.drop k) = ids.zip fs := by
  induction ids generalizing fs k with
  | nil =>
    cases fs with
    | nil => simp
    | cons b bs => simp at h
  | cons a as ih =>
    cases fs with
    | nil => simp at h
    | cons b bs =>
      cases k with
      | zero => simp
      | succ k' =>
        simp only [List.take_succ_cons, List.drop_succ_cons, List.zip_cons_cons,
          List.cons_append]
        rw [ih bs (by simpa using h) k']

/-- Per-connection pipeline state: buffered undecoded bytes, the FIFO of
pending command ids (oldest first), and the resolutions produced so far, in
resolution order. -/
structure ConnState where
  buf : List Nat
  pend : List Nat
  resolved : List (Nat × RFrame)

/-- Drain loop: repeatedly decode a complete frame from the buffer and
resolve the oldest pending entry with it; stop on NeedMoreData, on a
protocol error, or when no entry is pending. -/
def drainF : Nat → ConnState → ConnState
  | 0, st => st
  | fuel + 1, st =>
    match decode st.buf with
    | .done (.fr f) rest =>
      (match st.pend with
       | [] => st
       | id0 :: q => drainF fuel ⟨rest, q, st.resolved ++ [(id0, f)]⟩)
    | _ => st

/-- A chunk of bytes arrives from the socket: append it to the buffer, then
drain as many complete frames as possible. -/
def feedChunk (st : ConnState) (chunk : List Nat) : ConnState :=
  drainF ((st.buf ++ chunk).length + 1) ⟨st.buf ++ chunk, st.pend, st.resolved⟩

/-- Feed a sequence of byte chunks in arrival order. -/
def feedAll (st : ConnState) (chunks : List (List Nat)) : ConnState :=
  chunks.foldl feedChunk st

/-- The byte position j is a valid stopping point inside the frame stream
fs: either nothing remains, or j lies strictly inside the first remaining
frame's encoding. -/
def goodCut (fs : List RFrame) (j : Nat) : Prop :=
  (fs = [] ∧ j = 0) ∨ (∃ f0 t0, fs = f0 :: t0 ∧ j < (encodeF f0).length)

theorem drainF_stream : ∀ (fs : List RFrame), wfL fs = true →
    ∀ (m : Nat), m ≤ (encodeList fs).length →
    ∀ (ids : List Nat), ids.length = fs.length →
    ∀ (acc : List (Nat × RFrame)) (fuel : Nat), m + 1 ≤ fuel →
    ∃ k j, m = (encodeList (fs.take k)).length + j ∧
      goodCut (fs.drop k) j ∧
      drainF fuel ⟨List.take m (encodeList fs), ids, acc⟩
        = ⟨List.take j (encodeList (fs.drop k)), ids.drop k,
           acc ++ (ids.take k).zip (fs.take k)⟩ := by
  intro fs
  induction fs with
  | nil =>
    intro hwf m hm ids hlen acc fuel hfuel
    have e0 : encodeList ([] : List RFrame) = [] := rfl
    rw [e0] at hm
    simp only [List.length_nil] at hm
    have hm0 : m = 0 := by omega
    subst hm0
    obtain ⟨fu, rfl⟩ : ∃ fu, fuel = fu + 1 := ⟨fuel - 1, by omega⟩
    refine ⟨0, 0, by simp [e0], Or.inl ⟨rfl, rfl⟩, ?_⟩
    have hdec : decode (List.take 0 (encodeList ([] : List RFrame))) = .more := rfl
    simp only [drainF, hdec]
    simp
  | cons f tl ih =>
    intro hwf m hm ids hlen acc fuel hfuel
    obtain ⟨hwf1, hwtl⟩ := wfL_cons hwf
    obtain ⟨fu, rfl⟩ : ∃ fu, fuel = fu + 1 := ⟨fuel - 1, by omega⟩
    have eL : encodeList (f :: tl) = encodeF f ++ encodeList tl := rfl
    by_cases hc : m < (encodeF f).length
    · refine ⟨0, m, by simp [encodeList], Or.inr ⟨f, tl, by simp, hc⟩, ?_⟩
      have hbuf : List.take m (encodeList (f :: tl)) = List.take m (encodeF f) := by
        rw [eL, take_append_le _ _ (by omega)]
      have hdec : decode (List.take m (encodeList (f :: tl))) = .more := by
        rw [hbuf]
        exact decode_take_more f hwf1 hc
      simp only [drainF, hdec]
      simp
    · push_neg at hc
      have hm' : m - (encodeF f).length ≤ (encodeList tl).length := by
        rw [eL, List.length_append] at hm
        omega
      have hbuf : List.take m (encodeList (f :: tl))
          = encodeF f ++ List.take (m - (encodeF f).length) (encodeList tl) := by
        rw [eL, take_append_ge _ _ hc]
      have hdec : decode (List.take m (encodeList (f :: tl)))
          = .done (.fr f) (List.take (m - (encodeF f).length) (encodeList tl)) := by
        rw [hbuf]
        exact decode_encodeF_done f hwf1 _
      cases ids with
      | nil => simp at hlen
      | cons id0 ids' =>
        have hlen' : ids'.length = tl.length := by simpa using hlen
        have h3 := three_le_encodeF_length f
        have hstep : drainF (fu + 1) ⟨List.take m (encodeList (f :: tl)), id0 :: ids', acc⟩
            = drainF fu ⟨List.take (m - (encodeF f).length) (encodeList tl), ids',
                acc ++ [(id0, f)]⟩ := by
          simp only [drainF, hdec]
        obtain ⟨k', j, hmj, hcut, hdrain⟩ :=
          ih hwtl (m - (encodeF f).length) hm' ids' hlen' (acc ++ [(id0, f)]) fu (by omega)
        refine ⟨k' + 1, j, ?_, ?_, ?_⟩
        · have e1 : List.take (k' + 1) (f :: tl) = f :: List.take k' tl := rfl
          have e2 : encodeList (f :: List.take k' tl)
              = encodeF f ++ encodeList (List.take k' tl) := rfl
          rw [e1, e2, List.length_append]
          omega
        · have e3 : List.drop (k' + 1) (f :: tl) = List.drop k' tl := rfl
          rw [e3]
          exact hcut
        · rw [hstep, hdrain]
          have e3 : List.drop (k' + 1) (f :: tl) = List.drop k' tl := rfl
          have e4 : List.take (k' + 1) (f :: tl) = f :: List.take k' tl := rfl
          have e5 : List.drop (k' + 1) (id0 :: ids') = List.drop k' ids' := rfl
          have e6 : List.take (k' + 1) (id0 :: ids') = id0 :: List.take k' ids' := rfl
          rw [e3, e4, e5, e6]
          simp [List.zip_cons_cons, List.append_assoc]

theorem feedAll_stream : ∀ (chunks : List (List Nat)) (fs : List RFrame), wfL fs = true →
    ∀ j, goodCut fs j →
    chunks.flatten = (encodeList fs).drop j →
    ∀ (ids : List Nat), ids.length = fs.length →
    ∀ (acc : List (Nat × RFrame)),
    feedAll ⟨List.take j (encodeList fs), ids, acc⟩ chunks = ⟨[], [], acc ++ ids.zip fs⟩ := by
  intro chunks
  induction chunks with
  | nil =>
    intro fs hwf j hcut hflat ids hlen acc
    have hdrop : (encodeList fs).drop j = [] := by
      rw [← hflat]
      rfl
    rcases hcut with ⟨rfl, rfl⟩ | ⟨f0, t0, rfl, hj⟩
    · have hids : ids = [] := List.length_eq_zero.mp (by simpa using hlen)
      subst hids
      show feedAll ⟨List.take 0 (encodeList ([] : List RFrame)), [], acc⟩ [] = _
      simp [feedAll]
    · exfalso
      have h3 := three_le_encodeF_length f0
      have hl2 : (encodeList (f0 :: t0)).length - j = 0 := by
        have hcc := congrArg List.length hdrop
        simpa [List.length_drop] using hcc
      have e : encodeList (f0 :: t0) = encodeF f0 ++ encodeList t0 := rfl
      rw [e, List.length_append] at hl2
      omega
  | cons c cs ih =>
    intro fs hwf j hcut hflat ids hlen acc
    have hjle : j ≤ (encodeList fs).length := by
      rcases hcut with ⟨rfl, rfl⟩ | ⟨f0, t0, rfl, hj⟩
      · simp
      · have e : encodeList (f0 :: t0) = encodeF f0 ++ encodeList t0 := rfl
        rw [e, List.length_append]
        omega
    have hflat' : c ++ cs.flatten = (encodeList fs).drop j := by
      rw [← hflat]
      rfl
    have hclen : j + c.length ≤ (encodeList fs).length := by
      have hcc := congrArg List.length hflat'
      simp only [List.length_append, List.length_drop] at hcc
      omega
    have htakelen : (List.take j (encodeList fs)).length = j := by
      rw [List.length_take]
      omega
    have hbufc : List.take j (encodeList fs) ++ c
        = List.take (j + c.length) (encodeList fs) := by
      have hS : encodeList fs = List.take j (encodeList fs) ++ (c ++ cs.flatten) := by
        conv_lhs => rw [← List.take_append_drop j (encodeList fs)]
        rw [hflat']
      conv_rhs => rw [hS]
      rw [take_append_ge _ _ (by rw [htakelen]; omega)]
      rw [htakelen]
      simp only [Nat.add_sub_cancel_left]
      rw [take_append_le _ _ (le_refl c.length), List.take_length]
    obtain ⟨k, j', hmj, hcut', hdrain⟩ :=
      drainF_stream fs hwf (j + c.length) hclen ids hlen acc (j + c.length + 1) (le_refl _)
    have hfuel_eq : (List.take j (encodeList fs) ++ c).length + 1 = j + c.length + 1 := by
      rw [List.length_append, htakelen]
    have hstep : feedChunk ⟨List.take j (encodeList fs), ids, acc⟩ c
        = ⟨List.take j' (encodeList (fs.drop k)), ids.drop k,
           acc ++ (ids.take k).zip (fs.take k)⟩ := by
      show drainF ((List.take j (encodeList fs) ++ c).length + 1)
          ⟨List.take j (encodeList fs) ++ c, ids, acc⟩ = _
      rw [hfuel_eq, hbufc]
      exact hdrain
    have hwf' := wfL_drop fs hwf k
    have hlen' : (ids.drop k).length = (fs.drop k).length := by
      simp [List.length_drop, hlen]
    have hflat2 : cs.flatten = (encodeList (fs.drop k)).drop j' := by
      have h1 : cs.flatten = ((encodeList fs).drop j).drop c.length := by
        rw [← hflat', List.drop_left]
      have hS2 : encodeList fs = encodeList (fs.take k) ++ encodeList (fs.drop k) := by
        rw [← encodeList_append, List.take_append_drop]
      rw [h1, List.drop_drop]
      rw [hmj, hS2]
      rw [List.drop_append_eq_append_drop]
      have hd1 : (encodeList (fs.take k)).drop ((encodeList (fs.take k)).length + j') = [] :=
        List.drop_eq_nil_of_le (by omega)
      rw [hd1]
      simp only [Nat.add_sub_cancel_left, List.nil_append]
    have hrec := ih (fs.drop k) hwf' j' hcut' hflat2 (ids.drop k) hlen'
      (acc ++ (ids.take k).zip (fs.take k))
    show feedAll (feedChunk ⟨List.take j (encodeList fs), ids, acc⟩ c) cs = _
    rw [hstep, hrec, List.append_assoc, zip_take_drop ids fs hlen k]

/-- C1: for a single connection with N pending commands in FIFO order and
the reply byte stream equal to the concatenated encodings of N well-formed
reply frames, feeding the bytes in any chunking resolves exactly the N
pending entries, pairing the i-th command sent with the i-th reply frame,
in send order; the buffer and the FIFO end empty. -/
theorem c1_pipeline_fifo_order (ids : List Nat) (fs : List RFrame)
    (hlen : ids.length = fs.length) (hwf : wfL fs = true)
    (chunks : List (List Nat)) (hchunks : chunks.flatten = encodeList fs) :
    feedAll ⟨[], ids, []⟩ chunks = ⟨[], [], ids.zip fs⟩ := by
  have h0 : (⟨[], ids, []⟩ : ConnState) = ⟨List.take 0 (encodeList fs), ids, []⟩ := by
    rw [List.take_zero]
  rw [h0]
  have hcut : goodCut fs 0 := by
    cases fs with
    | nil => exact Or.inl ⟨rfl, rfl⟩
    | cons f0 t0 =>
      refine Or.inr ⟨f0, t0, rfl, ?_⟩
      have := three_le_encodeF_length f0
      omega
  have hflat : chunks.flatten = (encodeList fs).drop 0 := by
    rw [List.drop_zero]
    exact hchunks
  have h := feedAll_stream chunks fs hwf 0 hcut hflat ids hlen []
  rw [h]
  simp

/-- Witness for C1: two pending commands, two reply frames (+OK then :5),
bytes split at positions that straddle both frame boundaries. -/
theorem c1_pipeline_fifo_order_witness :
    feedAll ⟨[], [1, 2], []⟩ [[43, 79], [75, 13, 10, 58, 53], [13, 10]]
      = ⟨[], [], [(1, RFrame.simple [79, 75]), (2, RFrame.integer 5)]⟩ := by
  have h := c1_pipeline_fifo_order [1, 2] [RFrame.simple [79, 75], RFrame.integer 5]
    (by decide) (by decide) [[43, 79], [75, 13, 10, 58, 53], [13, 10]] (by decide)
  exact h

/-! ## Cluster hash-slot routing

Modelled from the spec: slot computation (section 4.5): hash the command's
routing key — or the hash-tag substring inside the first `{...}` when
present and nonempty, per the standard Redis cluster hash-tag rule — with
CRC16 (XMODEM), modulo 16384.
-/

/-- One shift-and-conditionally-xor round of CRC16-XMODEM (polynomial
0x1021), on a 16-bit value. -/
def crc16Round (crc : Nat) : Nat :=
  if 32768 ≤ crc then ((crc * 2) ^^^ 4129) % 65536 else (crc * 2) % 65536

/-- Fold one input byte into the CRC16-XMODEM state. -/
def crc16Byte (crc b : Nat) : Nat :=
  (List.range 8).foldl (fun c _ => crc16Round c) ((crc ^^^ ((b % 256) * 256)) % 65536)

/-- CRC16-XMODEM of a byte string, initial value 0. -/
def crc16 (bytes : List Nat) : Nat := bytes.foldl crc16Byte 0

/-- Bytes after an opening brace up to (excluding) the first closing brace;
none when no closing brace follows. -/
def hashTagContent : List Nat → Option (List Nat)
  | [] => none
  | b :: r => if b = 125 then some [] else (hashTagContent r).map (fun t => b :: t)

/-- The hash tag of a key: the substring between the first opening brace and
the first closing brace after it, when that substring is nonempty; an empty
tag or a first brace with no closing brace yields none (whole key hashed). -/
def hashTag : List Nat → Option (List Nat)
  | [] => none
  | b :: r =>
    if b = 123 then
      match hashTagContent r with
      | some [] => none
      | some t => some t
      | none => none
    else hashTag r

/-- The byte string actually hashed for routing: the hash tag when present,
else the whole key. -/
def routingBytes (key : List Nat) : List Nat :=
  match hashTag key with
  | some t => t
  | none => key

/-- Cluster slot of a key: CRC16 of the routing bytes, modulo 16384. -/
def calculateSlot (key : List Nat) : Nat := crc16 (routingBytes key) % 16384

/-- C3: two keys whose hash tag is the same `{tag}` substring compute the
same slot, and therefore route to the same owning node under any slot-to-
node map. -/
theorem c3_hash_tag_colocation (k1 k2 t : List Nat)
    (h1 : hashTag k1 = some t) (h2 : hashTag k2 = some t) :
    calculateSlot k1 = calculateSlot k2 ∧
    ∀ (owner : Nat → Nat), owner (calculateSlot k1) = owner (calculateSlot k2) := by
  have hs : calculateSlot k1 = calculateSlot k2 := by
    unfold calculateSlot routingBytes
    rw [h1, h2]
  exact ⟨hs, fun owner => by rw [hs]⟩

/-- Witness for C3 at the keys {tag}source and {tag}destination from the
repository's cluster tests. -/
theorem c3_hash_tag_colocation_witness :
    calculateSlot [123, 116, 97, 103, 125, 115, 111, 117, 114, 99, 101]
      = calculateSlot [123, 116, 97, 103, 125, 100, 101, 115, 116, 105, 110, 97, 116, 105, 111, 110]
    ∧ ∀ (owner : Nat → Nat),
        owner (calculateSlot [123, 116, 97, 103, 125, 115, 111, 117, 114, 99, 101])
          = owner (calculateSlot [123, 116, 97, 103, 125, 100, 101, 115, 116, 105, 110, 97, 116, 105, 111, 110]) :=
  c3_hash_tag_colocation _ _ [116, 97, 103] (by decide) (by decide)

/-! ## The unstable-RESP3-command gate

Modelled from the spec: a command whose RESP3 reply shape is not guaranteed
stable, invoked under RESP3 without the explicit opt-in, fails fast with
UnstableCommandError before any network I/O (section 7); the flagged
command list is the one documented in the repository's RESP3 notes.
-/

/-- The commands flagged as having unstable RESP3 reply shapes. -/
def UNSTABLE_RESP3_COMMANDS : List String :=
  ["XREAD", "XREADGROUP",
   "FT.AGGREGATE", "FT.AGGREGATE_WITHCURSOR", "FT.CURSOR_READ", "FT.INFO",
   "FT.PROFILE_AGGREGATE", "FT.PROFILE_SEARCH", "FT.SEARCH",
   "FT.SEARCH_NOCONTENT", "FT.SPELLCHECK",
   "TS.INFO", "TS.INFO_DEBUG"]

/-- Client-facing configuration recognized by the gate: protocol version and
the unstable-RESP3 opt-in. -/
structure ClientOptions where
  RESP : Nat
  unstableResp3 : Bool

/-- Outcome of invoking a command: rejected before any I/O, or sent. -/
inductive InvokeOutcome where
  | unstableCommandError
  | sentToServer
deriving DecidableEq

/-- The pre-send check: under RESP3, a flagged command without the opt-in
throws UnstableCommandError; otherwise the command proceeds to the network. -/
def invokeCommand (opts : ClientOptions) (commandName : String) : InvokeOutcome :=
  if opts.RESP = 3 ∧ commandName ∈ UNSTABLE_RESP3_COMMANDS ∧ opts.unstableResp3 = false
  then .unstableCommandError
  else .sentToServer

/-- Whether network I/O happens for an invocation outcome. -/
def networkIOPerformed : InvokeOutcome → Bool
  | .unstableCommandError => false
  | .sentToServer => true

/-- C4: every flagged-unstable command invoked at protocol version 3 without
unstableResp3 fails with UnstableCommandError and performs no network I/O;
with unstableResp3 set, the same call proceeds to the server. -/
theorem c4_unstable_command_gate (name : String) (h : name ∈ UNSTABLE_RESP3_COMMANDS) :
    invokeCommand ⟨3, false⟩ name = .unstableCommandError ∧
    networkIOPerformed (invokeCommand ⟨3, false⟩ name) = false ∧
    invokeCommand ⟨3, true⟩ name = .sentToServer := by
  have e1 : invokeCommand ⟨3, false⟩ name = .unstableCommandError := by
    unfold invokeCommand
    exact if_pos ⟨rfl, h, rfl⟩
  have e2 : invokeCommand ⟨3, true⟩ name = .sentToServer := by
    unfold invokeCommand
    refine if_neg ?_
    rintro ⟨-, -, hfalse⟩
    simp at hfalse
  refine ⟨e1, ?_, e2⟩
  rw [e1]
  rfl

/-- Witness for C4 at the flagged command XREAD. -/
theorem c4_unstable_command_gate_witness :
    invokeCommand ⟨3, false⟩ "XREAD" = .unstableCommandError ∧
    networkIOPerformed (invokeCommand ⟨3, false⟩ "XREAD") = false ∧
    invokeCommand ⟨3, true⟩ "XREAD" = .sentToServer :=
  c4_unstable_command_gate "XREAD" (by decide)

/-! ## Type-mapping client views

Modelled from the spec and the repository's RESP3 documentation: a client
view holds an immutable TypeMapping; withTypeMapping derives a new view with
an overridden mapping that borrows the same underlying connection, without
mutating the original view; the mapping decides the representation of a
decoded map frame (plain record by default, map construct when overridden).
-/

/-- Representation choice for RESP3 map frames. -/
inductive MapRepr where
  | record
  | mapConstruct
deriving DecidableEq

/-- Representation choice for blob string frames. -/
inductive BlobRepr where
  | utf8String
  | buffer
deriving DecidableEq

/-- The per-view type mapping: RESP3 semantic tag to representation. -/
structure TypeMapping where
  mapType : MapRepr
  blobType : BlobRepr
deriving DecidableEq

/-- A client view: the shared underlying connection (identified by id) plus
this view's TypeMapping. -/
structure RedisClientView where
  connectionId : Nat
  typeMapping : TypeMapping

/-- Derive a view with a different TypeMapping over the same connection. -/
def withTypeMapping (c : RedisClientView) (m : TypeMapping) : RedisClientView :=
  { connectionId := c.connectionId, typeMapping := m }

/-- Caller-visible representation of a hash-get-all reply. -/
inductive HGetAllReply where
  | record (pairs : List (String × String))
  | mapConstruct (pairs : List (String × String))
deriving DecidableEq

/-- Apply the map-type mapping at the frame-to-result boundary. -/
def applyMapMapping (tm : TypeMapping) (pairs : List (String × String)) : HGetAllReply :=
  match tm.mapType with
  | .record => .record pairs
  | .mapConstruct => .mapConstruct pairs

/-- The shape a given client view produces for a hash-get-all reply whose
decoded map frame carries the given pairs. -/
def hGetAllShape (c : RedisClientView) (pairs : List (String × String)) : HGetAllReply :=
  applyMapMapping c.typeMapping pairs

/-- Three successive calls: original view, derived view with the map
override, then the original view again. -/
def typeMappingScenario (c : RedisClientView) (pairs : List (String × String)) :
    HGetAllReply × HGetAllReply × HGetAllReply :=
  let first := hGetAllShape c pairs
  let derived := withTypeMapping c ⟨.mapConstruct, c.typeMapping.blobType⟩
  let second := hGetAllShape derived pairs
  let third := hGetAllShape c pairs
  (first, second, third)

/-- C5: deriving a view with an overridden TypeMapping shares the connection
and changes only the derived view's representation: the original client
yields the plain record before and after, the derived view yields the map
construct, and derivation leaves the original's mapping untouched. -/
theorem c5_type_mapping_isolation (c : RedisClientView) (pairs : List (String × String))
    (h : c.typeMapping.mapType = .record) :
    typeMappingScenario c pairs = (.record pairs, .mapConstruct pairs, .record pairs) ∧
    (∀ m, (withTypeMapping c m).connectionId = c.connectionId) ∧
    (∀ m, (withTypeMapping c m).typeMapping = m) := by
  refine ⟨?_, fun m => rfl, fun m => rfl⟩
  simp [typeMappingScenario, hGetAllShape, applyMapMapping, withTypeMapping, h]

/-- Witness for C5 at a default-mapped client and one field/value pair. -/
theorem c5_type_mapping_isolation_witness :
    typeMappingScenario ⟨0, ⟨.record, .utf8String⟩⟩ [("field", "value")]
      = (.record [("field", "value")], .mapConstruct [("field", "value")],
         .record [("field", "value")]) ∧
    (∀ m, (withTypeMapping ⟨0, ⟨.record, .utf8String⟩⟩ m).connectionId
        = (⟨0, ⟨.record, .utf8String⟩⟩ : RedisClientView).connectionId) ∧
    (∀ m, (withTypeMapping ⟨0, ⟨.record, .utf8String⟩⟩ m).typeMapping = m) :=
  c5_type_mapping_isolation ⟨0, ⟨.record, .utf8String⟩⟩ [("field", "value")] rfl

/-! ## Typed transactions

Modelled from the spec: the transaction engine (section 4.4) retains, for
every queued command, its declared reply type and reply transformer; the
default execution yields a uniform sequence of reply frames, the typed
execution a fixed-arity per-position-typed tuple.
-/

/-- Declared reply type of a queued command. -/
inductive ReplyTypeTag where
  | stringReply
  | genericReply
deriving DecidableEq

/-- The caller-visible type denoted by a declared reply type. -/
def denoteTag : ReplyTypeTag → Type
  | .stringReply => String
  | .genericReply => RFrame

/-- Decode payload bytes as a text string. -/
def bytesToString (s : List Nat) : String := String.mk (s.map Char.ofNat)

/-- A queued command: its name, declared reply type, and the per-command
reply transformer applied positionally on typed execution. -/
structure QueuedCommand where
  name : String
  tag : ReplyTypeTag
  transform : RFrame → denoteTag tag

/-- The PING command declaration: reply type string, transforming a simple
string frame into its text. -/
def PING_COMMAND : QueuedCommand :=
  { name := "PING", tag := .stringReply,
    transform := fun fr =>
      match fr with
      | .simple s => bytesToString s
      | _ => "" }

/-- The fixed-arity typed result of a transaction with the given declared
reply types: one typed slot per queued command. -/
def TypedReplies : List ReplyTypeTag → Type
  | [] => PUnit
  | t :: ts => denoteTag t × TypedReplies ts

/-- Default (untyped) execution: the uniform sequence of reply frames, one
per queued command, in queue order. -/
def execUntyped (_tx : List QueuedCommand) (replies : List RFrame) : List RFrame :=
  replies

/-- Typed execution: apply each queued command's own transformer to its
positional reply, producing the per-position-typed tuple; none on arity
mismatch. -/
def execTyped : (tx : List QueuedCommand) → List RFrame →
    Option (TypedReplies (tx.map QueuedCommand.tag))
  | [], [] => some PUnit.unit
  | cmd :: tx', r :: rs' => (execTyped tx' rs').map (fun rest => (cmd.transform r, rest))
  | [], _ :: _ => none
  | _ :: _, [] => none

/-- C6: a transaction holding exactly the PING command (declared reply type
string) resolves its typed execution to a single-element tuple whose sole
component is a string — the type of the typed result is literally
String x PUnit — while the untyped execution of the same transaction is a
generic frame sequence of the same length 1. -/
theorem c6_typed_transaction_shape (s : List Nat) :
    (execUntyped [PING_COMMAND] [.simple s]).length = 1 ∧
    execTyped [PING_COMMAND] [.simple s] = some (bytesToString s, PUnit.unit) := by
  exact ⟨rfl, rfl⟩

/-! ## The ZUNIONSTORE argument builder

Modelled from the spec and the repository's ZUNIONSTORE tests: the builder
maps the destination, the keys input (plain or weighted, single or list)
and the optional AGGREGATE mode to the exact wire argument array. -/

/-- The keys argument accepted by the union-store builder. -/
inductive ZKeysInput where
  | single (key : String)
  | multiple (keys : List String)
  | singleWeighted (key : String) (weight : Int)
  | multipleWeighted (entries : List (String × Int))

/-- Build the ZUNIONSTORE argument array: command name, destination, key
count, keys, then WEIGHTS with the weights when weighted, then AGGREGATE
with the mode when given. -/
def zUnionStoreTransformArguments (destination : String) (keys : ZKeysInput)
    (aggregate : Option String) : List String :=
  ["ZUNIONSTORE", destination] ++
  (match keys with
   | .single k => ["1", k]
   | .multiple ks => [toString ks.length] ++ ks
   | .singleWeighted k w => ["1", k, "WEIGHTS", toString w]
   | .multipleWeighted es =>
     [toString es.length] ++ es.map Prod.fst ++ ["WEIGHTS"]
       ++ es.map (fun e => toString e.2)) ++
  (match aggregate with
   | some a => ["AGGREGATE", a]
   | none => [])

/-- C7: the ZUNIONSTORE builder is a pure function producing exactly the
documented array: for one weighted key, the six-element array ending in
WEIGHTS and the weight's decimal string; for a weighted key list, the count
then the keys then WEIGHTS then the weights. -/
theorem c7_zunionstore_builder (D K : String) (W : Int) (es : List (String × Int)) :
    zUnionStoreTransformArguments D (.singleWeighted K W) none
      = ["ZUNIONSTORE", D, "1", K, "WEIGHTS", toString W] ∧
    zUnionStoreTransformArguments D (.multipleWeighted es) none
      = ["ZUNIONSTORE", D, toString es.length] ++ es.map Prod.fst
        ++ ["WEIGHTS"] ++ es.map (fun e => toString e.2) := by
  constructor
  · rfl
  · simp [zUnionStoreTransformArguments]

/-! ## Command declaration annotations: FIRST_KEY_INDEX and XRANGE COUNT

Taken from the source: the XRANGE declaration and transformXRangeArguments
(unnamed stream-commands module), the SRANDMEMBER and CLIENT GETREDIR
declarations (embedded in SORT_RO.spec.ts), and the CF.INFO declaration
(embedded in cuckoo RESERVE.spec.ts).  A JavaScript truthiness test guards
the COUNT clause, so COUNT equal to 0 is treated like an absent option. -/

/-- Options of transformXRangeArguments; COUNT may be absent. -/
structure XRangeOptions where
  COUNT : Option Int

/-- Taken from the source: build [command, key, start, end], then append
COUNT and its decimal string only when options?.COUNT is truthy (present
and nonzero). -/
def transformXRangeArguments (command key start «end» : String)
    (options : Option XRangeOptions) : List String :=
  let args := [command, key, start, «end»]
  match options with
  | some opts =>
    (match opts.COUNT with
     | some c => if c ≠ 0 then args ++ ["COUNT", toString c] else args
     | none => args)
  | none => args

namespace XRANGE

/-- Taken from the source: XRANGE routes on its first argument. -/
def FIRST_KEY_INDEX : Option Nat := some 1

/-- Taken from the source: XRANGE is read-only. -/
def IS_READ_ONLY : Bool := true

/-- Taken from the source: XRANGE's builder is transformXRangeArguments
bound to the command name XRANGE. -/
def transformArguments (key start «end» : String) (options : Option XRangeOptions) :
    List String :=
  transformXRangeArguments "XRANGE" key start «end» options

end XRANGE

namespace SRANDMEMBER

/-- Taken from the source (declaration embedded in SORT_RO.spec.ts). -/
def FIRST_KEY_INDEX : Option Nat := some 1

/-- Taken from the source. -/
def IS_READ_ONLY : Bool := true

/-- Taken from the source. -/
def transformArguments (key : String) : List String := ["SRANDMEMBER", key]

end SRANDMEMBER

namespace CF_INFO

/-- Taken from the source (declaration embedded in cuckoo RESERVE.spec.ts). -/
def FIRST_KEY_INDEX : Option Nat := some 1

/-- Taken from the source. -/
def IS_READ_ONLY : Bool := true

/-- Taken from the source. -/
def transformArguments (key : String) : List String := ["CF.INFO", key]

end CF_INFO

namespace CLIENT_GETREDIR

/-- Taken from the source: CLIENT GETREDIR takes no routing key, so its
FIRST_KEY_INDEX is undefined. -/
def FIRST_KEY_INDEX : Option Nat := none

/-- Taken from the source. -/
def IS_READ_ONLY : Bool := true

/-- Taken from the source. -/
def transformArguments : List String := ["CLIENT", "GETREDIR"]

end CLIENT_GETREDIR

/-- C8: every declaration with FIRST_KEY_INDEX 1 (XRANGE, SRANDMEMBER,
CF.INFO) places the caller-supplied routing key at index 1 of the built
argument array for every input, and the keyless CLIENT GETREDIR declaration
has no FIRST_KEY_INDEX. -/
theorem c8_first_key_index (key start «end» : String) (options : Option XRangeOptions) :
    XRANGE.FIRST_KEY_INDEX = some 1 ∧
    (XRANGE.transformArguments key start «end» options)[1]? = some key ∧
    SRANDMEMBER.FIRST_KEY_INDEX = some 1 ∧
    (SRANDMEMBER.transformArguments key)[1]? = some key ∧
    CF_INFO.FIRST_KEY_INDEX = some 1 ∧
    (CF_INFO.transformArguments key)[1]? = some key ∧
    CLIENT_GETREDIR.FIRST_KEY_INDEX = none := by
  refine ⟨rfl, ?_, rfl, rfl, rfl, rfl, rfl⟩
  unfold XRANGE.transformArguments transformXRangeArguments
  rcases options with _ | ⟨copt⟩
  · rfl
  · rcases copt with _ | c
    · rfl
    · show (if c ≠ 0 then _ else _)[1]? = some key
      split
      · rfl
      · rfl

/-- C9: transformXRangeArguments returns [command, key, start, end] extended
with the COUNT clause exactly when COUNT is present and nonzero; an
explicit COUNT of 0 yields the same array as no options at all. -/
theorem c9_xrange_count_truthiness (c k s e : String) :
    (∀ cnt : Int, cnt ≠ 0 →
      transformXRangeArguments c k s e (some ⟨some cnt⟩)
        = [c, k, s, e, "COUNT", toString cnt]) ∧
    transformXRangeArguments c k s e (some ⟨some 0⟩) = transformXRangeArguments c k s e none ∧
    transformXRangeArguments c k s e (some ⟨none⟩) = [c, k, s, e] ∧
    transformXRangeArguments c k s e none = [c, k, s, e] := by
  refine ⟨?_, ?_, rfl, rfl⟩
  · intro cnt hcnt
    show (if cnt ≠ 0 then [c, k, s, e] ++ ["COUNT", toString cnt] else [c, k, s, e])
        = [c, k, s, e, "COUNT", toString cnt]
    rw [if_pos hcnt]
    rfl
  · show (if (0 : Int) ≠ 0 then [c, k, s, e] ++ ["COUNT", toString (0 : Int)] else [c, k, s, e])
        = transformXRangeArguments c k s e none
    rw [if_neg (by simp)]
    rfl

/-- Witness for C9 at XRANGE with COUNT 5 and COUNT 0. -/
theorem c9_xrange_count_truthiness_witness :
    transformXRangeArguments "XRANGE" "key" "-" "+" (some ⟨some 5⟩)
      = ["XRANGE", "key", "-", "+", "COUNT", toString (5 : Int)] ∧
    transformXRangeArguments "XRANGE" "key" "-" "+" (some ⟨some 0⟩)
      = transformXRangeArguments "XRANGE" "key" "-" "+" none :=
  ⟨(c9_xrange_count_truthiness "XRANGE" "key" "-" "+").1 5 (by decide),
   (c9_xrange_count_truthiness "XRANGE" "key" "-" "+").2.1⟩

/-! ## The default credentials retry policy

Taken from the source: DEFAULT_RETRY_POLICY in
entra-id-credentials-provider-factory.ts.  The identity-provider error
universe is modelled by the kinds the policy distinguishes: a NetworkError
instance versus anything else (for example rejected credentials). -/

/-- Errors an identity provider call can produce, as the retry policy
distinguishes them. -/
inductive ProviderError where
  | networkError
  | rejectedCredentials
  | otherError
deriving DecidableEq

/-- A credentials-provider retry policy. -/
structure RetryPolicy where
  shouldRetry : ProviderError → Bool
  maxAttempts : Nat
  initialDelayMs : Nat
  maxDelayMs : Nat
  backoffMultiplier : Nat
  jitterPercentage : ℚ

/-- Taken from the source: retry only on network errors; at most 10
attempts; exponential backoff from 100 ms with multiplier 2 capped at
100000 ms; 10 percent jitter. -/
def DEFAULT_RETRY_POLICY : RetryPolicy :=
  { shouldRetry := fun e =>
      match e with
      | .networkError => true
      | _ => false,
    maxAttempts := 10,
    initialDelayMs := 100,
    maxDelayMs := 100000,
    backoffMultiplier := 2,
    jitterPercentage := 1 / 10 }

/-- C10: the default retry policy retries exactly the network errors — in
particular rejected credentials are never retried — and its numeric
parameters are maxAttempts 10, initial delay 100 ms, multiplier 2, max
delay 100000 ms, jitter 10 percent. -/
theorem c10_default_retry_policy :
    (∀ e, DEFAULT_RETRY_POLICY.shouldRetry e = true ↔ e = .networkError) ∧
    DEFAULT_RETRY_POLICY.shouldRetry .rejectedCredentials = false ∧
    DEFAULT_RETRY_POLICY.maxAttempts = 10 ∧
    DEFAULT_RETRY_POLICY.initialDelayMs = 100 ∧
    DEFAULT_RETRY_POLICY.maxDelayMs = 100000 ∧
    DEFAULT_RETRY_POLICY.backoffMultiplier = 2 ∧
    DEFAULT_RETRY_POLICY.jitterPercentage = 1 / 10 := by
  refine ⟨?_, rfl, rfl, rfl, rfl, rfl, rfl⟩
  intro e
  cases e <;> simp [DEFAULT_RETRY_POLICY]
